import Mathlib

/-!
Verification of the search-suggestion engine (trie autocomplete +
Levenshtein spell suggester + input router).

Strings are modelled as `List Char`; Python's `str.lower` is modelled
character-wise by `Char.toLower`, and `str.strip`/`str.split` over the
standard ASCII whitespace characters.  All definitions in the `defs`
part are shallow embeddings of the Python source
(`Search_Suggestions.py`, `Spell.py`, `Trie.py`); `edist` and
`claimSuggest` are reference definitions used to state specifications.
-/

set_option maxRecDepth 4000

namespace SS

/-! ## String helpers -/

/-- Python whitespace characters (`str.strip` / `str.split` default set). -/
def pyIsSpace (c : Char) : Bool :=
  c = ' ' || c = '\t' || c = '\n' || c = '\r' || c = '\x0b' || c = '\x0c'

/-- Python `str.strip()`: drop leading and trailing whitespace. -/
def strip (s : List Char) : List Char :=
  ((s.dropWhile pyIsSpace).reverse.dropWhile pyIsSpace).reverse

/-- Python `str.lower()` (basic-latin case folding, per the spec's scope). -/
def lowerStr (s : List Char) : List Char :=
  s.map Char.toLower

/-- Worker for `splitWs`; `acc` holds the current word, reversed. -/
def splitWsAux : List Char → List Char → List (List Char)
  | [], acc => if acc = [] then [] else [acc.reverse]
  | c :: rest, acc =>
      if pyIsSpace c then
        if acc = [] then splitWsAux rest [] else acc.reverse :: splitWsAux rest []
      else
        splitWsAux rest (c :: acc)

/-- Python `str.split()`: split on whitespace runs, dropping empty pieces. -/
def splitWs (s : List Char) : List (List Char) :=
  splitWsAux s []

/-- Strict lexicographic (code-point) order on character lists, as a
Boolean predicate; this is the order in which Python compares strings. -/
def lexLt : List Char → List Char → Bool
  | [], [] => false
  | [], _ :: _ => true
  | _ :: _, [] => false
  | a :: as, b :: bs => if a < b then true else if b < a then false else lexLt as bs

/-- Non-strict lexicographic (code-point) order on character lists. -/
def lexLe : List Char → List Char → Bool
  | [], _ => true
  | _ :: _, [] => false
  | a :: as, b :: bs => if a < b then true else if b < a then false else lexLe as bs

/-! ## Levenshtein distance (`levenshtein` in `Spell.py` /
`Search_Suggestions.py`)

The Python function runs the standard two-row dynamic program over
`s1` (rows) and `s2` (columns), after swapping the arguments so the
second is the shorter.  `levRowAux` is the inner `for j, c2 in
enumerate(s2)` loop, `levRows` the outer `for i, c1 in enumerate(s1)`
loop. -/

/-- Inner DP loop: given the row character `c1`, the last value written
to the current row (`current[j]`), the remaining column characters and
the tail `previous[j:]` of the previous row, produce the remaining
entries of the current row.  `ins`, `dele`, `sub` follow the source. -/
def levRowAux (c1 : Char) : Nat → List Char → List Nat → List Nat
  | _, [], _ => []
  | _, _ :: _, [] => []
  | last, c2 :: t, pj :: ptail =>
      let ins := ptail.headD 0 + 1
      let dele := last + 1
      let sub := pj + (if c1 = c2 then 0 else 1)
      let v := min (min ins dele) sub
      v :: levRowAux c1 v t ptail

/-- Outer DP loop over the characters of `s1` (with their indices). -/
def levRows (s2 : List Char) : List Char → Nat → List Nat → List Nat
  | [], _, previous => previous
  | c1 :: rest, i, previous =>
      levRows s2 rest (i + 1) ((i + 1) :: levRowAux c1 (i + 1) s2 previous)

/-- Body of the Python `levenshtein` after the argument swap:
`if len(s2) == 0: return len(s1)`, then the DP, returning
`previous[-1]`. -/
def levBase (s1 s2 : List Char) : Nat :=
  if s2.length = 0 then s1.length
  else (levRows s2 s1 0 (List.range (s2.length + 1))).getLastD 0

/-- Python `levenshtein(s1, s2)`.  The source's single self-call
`return levenshtein(s2, s1)` (taken when `len(s1) < len(s2)`) lands in
the branch where no further swap happens, so it is inlined here as
`levBase s2 s1`. -/
def levenshtein (s1 s2 : List Char) : Nat :=
  if s1.length < s2.length then levBase s2 s1 else levBase s1 s2

/-- Reference recursive edit distance, matching the DP recurrence
(min of insert, delete, substitute); used only to state and prove
properties of `levenshtein`. -/
def edist : List Char → List Char → Nat
  | [], t => t.length
  | _ :: s, [] => s.length + 1
  | a :: s, b :: t =>
      min (min (edist s (b :: t) + 1) (edist (a :: s) t + 1))
        (edist s t + (if a = b then 0 else 1))
termination_by s t => s.length + t.length
decreasing_by all_goals simp +arith [List.length]

/-- The row of DP values for consumed (reversed) row prefix `X` and
consumed (reversed) column prefix `Y`, over remaining columns `t`. -/
def rowSpec (X : List Char) : List Char → List Char → List Nat
  | Y, [] => [edist X Y]
  | Y, b :: t => edist X Y :: rowSpec X (b :: Y) t

/-! ## Trie (`TrieNode` / `Trie` in `Trie.py` and `Search_Suggestions.py`;
the two files' `TrieNode`, `insert` and `get_prefix_matches` are
textually identical)

Python's `dict` children mapping is modelled as an insertion-ordered
association list with unique keys: lookup scans for the key, update
replaces in place, and adding a new key appends at the end. -/

inductive TrieNode where
  | mk (children : List (Char × TrieNode)) (is_end_of_word : Bool) (word : Option (List Char))

def TrieNode.children : TrieNode → List (Char × TrieNode)
  | .mk ch _ _ => ch

def TrieNode.is_end_of_word : TrieNode → Bool
  | .mk _ e _ => e

def TrieNode.word : TrieNode → Option (List Char)
  | .mk _ _ w => w

/-- `TrieNode()`: fresh node with no children, not terminal, no word. -/
def emptyNode : TrieNode := .mk [] false none

/-- Dict lookup `node.children[char]` (`none` when `char not in node.children`). -/
def childFind (l : List (Char × TrieNode)) (c : Char) : Option TrieNode :=
  match l with
  | [] => none
  | p :: rest => if p.1 = c then some p.2 else childFind rest c

/-- Dict update `node.children[char] = n`: replace in place, or append a
new binding at the end (Python dicts preserve insertion order). -/
def childSet (l : List (Char × TrieNode)) (c : Char) (n : TrieNode) : List (Char × TrieNode) :=
  match l with
  | [] => [(c, n)]
  | p :: rest => if p.1 = c then (c, n) :: rest else p :: childSet rest c n

/-- The walk/create loop of `Trie.insert`: descend along the remaining
characters, creating missing children, then mark the final node
terminal and store the full (already lowercased) word there. -/
def insertAux (full : List Char) : List Char → TrieNode → TrieNode
  | [], n => .mk n.children true (some full)
  | c :: rest, n =>
      .mk (childSet n.children c
            (insertAux full rest ((childFind n.children c).getD emptyNode)))
        n.is_end_of_word n.word

structure Trie where
  root : TrieNode

/-- `Trie.insert(word)`: lowercase, then walk/create the child chain. -/
def Trie.insert (t : Trie) (word : List Char) : Trie :=
  ⟨insertAux (lowerStr word) (lowerStr word) t.root⟩

/-- `Trie()`: empty trie. -/
def trieEmpty : Trie := ⟨emptyNode⟩

/-- A trie built from scratch by a sequence of `insert` calls. -/
def buildTrie (ws : List (List Char)) : Trie :=
  ws.foldl Trie.insert trieEmpty

/-- `insert_all` of `Search_Suggestions.py`: `if w.strip(): self.insert(w)`. -/
def Trie.insert_all (t : Trie) (words : List (List Char)) : Trie :=
  words.foldl (fun acc w => if strip w = [] then acc else acc.insert w) t

/-- `insert_all` of the standalone `Trie.py`: inserts every entry,
with no blank-entry guard. -/
def TrieDemo.insert_all (t : Trie) (words : List (List Char)) : Trie :=
  words.foldl Trie.insert t

/-- The prefix-walk loop of `get_prefix_matches`: `none` models the
early `return []` when a character is absent. -/
def walkNode : TrieNode → List Char → Option TrieNode
  | n, [] => some n
  | n, c :: rest =>
      match childFind n.children c with
      | none => none
      | some m => walkNode m rest

/-- Insertion of `x` into a sorted list, by the Boolean order `le`
(stable: `x` goes before the first strictly larger element). -/
def insertBy (le : α → α → Bool) (x : α) : List α → List α
  | [] => [x]
  | y :: ys => if le x y then x :: y :: ys else y :: insertBy le x ys

/-- Stable insertion sort by the Boolean order `le`; models both
Python's `sorted` (on keys) and `list.sort` (on candidate pairs). -/
def sortBy (le : α → α → Bool) : List α → List α
  | [] => []
  | x :: xs => insertBy le x (sortBy le xs)

/-- Order on child bindings: compare keys by code point. -/
def childLe (p q : Char × TrieNode) : Bool := p.1 ≤ q.1

mutual
/-- The nested `dfs` of `get_prefix_matches`: stop once `limit` results
are collected; emit the accumulated path if the node is terminal; then
visit children in ascending key order.  Python iterates
`sorted(node.children.keys())`, looking each child up in the dict;
since the keys are unique this is iterating the bindings sorted by key. -/
def dfsNode (limit : Nat) (n : TrieNode) (cur : List Char) (acc : List (List Char)) :
    List (List Char) :=
  if limit ≤ acc.length then acc
  else dfsChildren limit (sortBy childLe n.children) cur
    (if n.is_end_of_word then acc ++ [cur] else acc)
termination_by (sizeOf n, 0)
decreasing_by
  apply Prod.Lex.left
  have hins : ∀ (x : Char × TrieNode) (l : List (Char × TrieNode)),
      sizeOf (insertBy childLe x l) = 1 + sizeOf x + sizeOf l := by
    intro x l
    induction l with
    | nil => simp +arith [insertBy]
    | cons y ys ih => simp only [insertBy]; split <;> simp +arith [ih]
  have hsort : ∀ l : List (Char × TrieNode), sizeOf (sortBy childLe l) = sizeOf l := by
    intro l
    induction l with
    | nil => rfl
    | cons x xs ih => simp +arith [sortBy, hins, ih]
  cases n with
  | mk ch e w => simp +arith [TrieNode.children, hsort]

/-- The `for ch in sorted(...)` loop of `dfs`, over the remaining
(sorted) child bindings. -/
def dfsChildren (limit : Nat) (l : List (Char × TrieNode)) (cur : List Char)
    (acc : List (List Char)) : List (List Char) :=
  match l with
  | [] => acc
  | (c, m) :: rest => dfsChildren limit rest cur (dfsNode limit m (cur ++ [c]) acc)
termination_by (sizeOf l, 1)
decreasing_by
  · apply Prod.Lex.left; simp +arith
  · apply Prod.Lex.left; simp +arith
end

/-- `get_prefix_matches(prefix, limit)`. -/
def Trie.get_prefix_matches (t : Trie) (p : List Char) (limit : Nat) : List (List Char) :=
  let p' := lowerStr p
  match walkNode t.root p' with
  | none => []
  | some n => (dfsNode limit n p' []).take limit

/-- The keys of a children list. -/
def keysOf (l : List (Char × TrieNode)) : List Char := l.map Prod.fst

mutual
/-- Well-formedness of the dict model: at every node the child keys are
distinct.  This holds for every trie built by `insert` operations. -/
def nodeWF : TrieNode → Prop
  | .mk ch _ _ => (keysOf ch).Nodup ∧ childrenWF ch
def childrenWF : List (Char × TrieNode) → Prop
  | [] => True
  | (_, m) :: rest => nodeWF m ∧ childrenWF rest
end

mutual
/-- All words stored at terminal nodes (`is_end_of_word` set) of a subtree. -/
def termWords : TrieNode → List (List Char)
  | .mk ch e w => (if e then w.toList else []) ++ childWords ch
def childWords : List (Char × TrieNode) → List (List Char)
  | [] => []
  | (_, m) :: rest => termWords m ++ childWords rest
end

/-! ## Spell suggester (`SpellSuggester` in `Spell.py` /
`Search_Suggestions.py`; the two copies are textually identical) -/

structure SpellSuggester where
  vocab : List (List Char)
  max_dist : Nat

/-- `SpellSuggester.__init__`:
`self.vocab = set(w.lower() for w in vocabulary if w.strip())`.
The Python `set` is modelled as a duplicate-free list in an arbitrary
construction order (here `List.dedup`); insensitivity of `suggest` to
that order is proved separately.  The `len_buckets` map is derived
data, recovered by `bucket` below. -/
def mkSuggester (vocabulary : List (List Char)) (max_dist : Nat) : SpellSuggester :=
  ⟨((vocabulary.filter (fun w => !(strip w).isEmpty)).map lowerStr).dedup, max_dist⟩

/-- `self.len_buckets[L]`: the vocabulary words of exactly length `L`,
in vocabulary iteration order (the source builds the buckets by
appending while iterating `self.vocab`). -/
def bucket (s : SpellSuggester) (L : Nat) : List (List Char) :=
  s.vocab.filter (fun t => t.length == L)

/-- The skip test `if term and term[0] != word[0]: continue`, negated:
keep `t` iff `t` is empty or its first character matches the query's
first character.  (`w` is never empty where this is called; an empty
`w` would have raised IndexError in the source.) -/
def firstCharOk (w t : List Char) : Bool :=
  match t, w with
  | [], _ => true
  | _ :: _, [] => true
  | c :: _, d :: _ => c == d

/-- Inner loop of `suggest` over one bucket: keep `(dist, term)` pairs
with `dist <= max_dist` for terms passing the first-character filter. -/
def candFromBucket (s : SpellSuggester) (w : List Char) :
    List (List Char) → List (Nat × List Char)
  | [] => []
  | t :: ts =>
      (if firstCharOk w t then
        (if levenshtein w t ≤ s.max_dist then [(levenshtein w t, t)] else [])
      else []) ++ candFromBucket s w ts

/-- Outer loop of `suggest` over the candidate lengths
(`range(max(1, wlen - 1), wlen + 2)`); an absent bucket is the empty
list here, so `if length not in self.len_buckets: continue` needs no
separate case. -/
def collectCandidates (s : SpellSuggester) (w : List Char) : List Nat → List (Nat × List Char)
  | [] => []
  | L :: rest => candFromBucket s w (bucket s L) ++ collectCandidates s w rest

/-- The sort order `key=lambda x: (x[0], x[1])`: by distance first,
then lexicographically by term. -/
def pairLe (p q : Nat × List Char) : Bool :=
  decide (p.1 < q.1) || (p.1 == q.1 && lexLe p.2 q.2)

/-- `SpellSuggester.suggest(word, top_k)`. -/
def suggest (s : SpellSuggester) (word : List Char) (top_k : Nat) : List (List Char) :=
  let w := strip (lowerStr word)
  if w = [] ∨ w ∈ s.vocab then []
  else
    let wlen := w.length
    let lengths := List.range' (max 1 (wlen - 1)) (wlen + 2 - max 1 (wlen - 1))
    let candidates := collectCandidates s w lengths
    ((sortBy pairLe candidates).map Prod.snd).take top_k

/-- The result sequence described by claim C2's words: the vocabulary
terms from the length buckets for lengths `max(1, wlen-1) .. wlen+1`
whose first character equals the query's and whose distance is at most
`max_dist`, sorted ascending by `(distance, term)`, truncated to
`top_k`.  Reference definition written from the claim, to be compared
with `suggest`. -/
def claimSuggest (s : SpellSuggester) (word : List Char) (top_k : Nat) : List (List Char) :=
  let w := strip (lowerStr word)
  let wlen := w.length
  let keep := s.vocab.filter (fun t =>
    decide (max 1 (wlen - 1) ≤ t.length) && decide (t.length ≤ wlen + 1) &&
    (t.headD ' ' == w.headD ' ') && decide (levenshtein w t ≤ s.max_dist))
  ((sortBy pairLe (keep.map (fun t => (levenshtein w t, t)))).map Prod.snd).take top_k

/-! ## Input router (`handle_input` in `Search_Suggestions.py`) -/

/-- `handle_input(text, trie, suggester)`: the pair (autocomplete list,
spell-suggestion list) that the function computes and prints; `none`
models the early `return` on blank input.  Mirrors the source,
including the fact that `text` is stripped *before* the
`text[-1] != " "` test. -/
def handle_input (text : List Char) (trie : Trie) (suggester : SpellSuggester) :
    Option (List (List Char) × List (List Char)) :=
  let text' := strip text
  if text' = [] then none
  else
    let words := splitWs text'
    let last_word := words.getLastD []
    let auto_suggestions := trie.get_prefix_matches last_word 6
    let spell_suggestions :=
      if 3 ≤ last_word.length ∧ (text' = [] ∨ text'.getLastD ' ' ≠ ' ') then
        suggest suggester last_word 3
      else []
    some (auto_suggestions, spell_suggestions)

/-! ## Properties of `edist` and correctness of the two-row DP -/

theorem edist_nil_right (s : List Char) : edist s [] = s.length := by
  cases s <;> simp [edist]

theorem edist_self (t : List Char) : edist t t = 0 := by
  induction t with
  | nil => simp [edist]
  | cons a s ih => simp [edist, ih]

theorem edist_symm_aux : ∀ (N : Nat) (s t : List Char), s.length + t.length ≤ N →
    edist s t = edist t s := by
  intro N
  induction N with
  | zero =>
    intro s t h
    match s, t with
    | [], [] => rfl
    | [], _ :: _ => simp at h
    | _ :: _, _ => simp at h
  | succ N ih =>
    intro s t h
    match s, t with
    | [], t => simp [edist, edist_nil_right]
    | a :: s, [] => simp [edist, edist_nil_right]
    | a :: s, b :: t =>
      have h1 : s.length + (b :: t).length ≤ N := by simp at h ⊢; omega
      have h2 : (a :: s).length + t.length ≤ N := by simp at h ⊢; omega
      have h3 : s.length + t.length ≤ N := by simp at h ⊢; omega
      simp only [edist]
      rw [ih s (b :: t) h1, ih (a :: s) t h2, ih s t h3,
        Nat.min_comm (edist t (a :: s) + 1) (edist (b :: t) s + 1)]
      have : (if a = b then 0 else 1) = (if b = a then 0 else 1) := by
        by_cases hab : a = b <;> simp [hab, Ne.symm, eq_comm]
      rw [this]

theorem edist_symm (s t : List Char) : edist s t = edist t s :=
  edist_symm_aux (s.length + t.length) s t le_rfl

theorem edist_len_aux : ∀ (N : Nat) (s t : List Char), s.length + t.length ≤ N →
    s.length - t.length ≤ edist s t ∧ t.length - s.length ≤ edist s t := by
  intro N
  induction N with
  | zero =>
    intro s t h
    match s, t with
    | [], [] => simp [edist]
    | [], _ :: _ => simp at h
    | _ :: _, _ => simp at h
  | succ N ih =>
    intro s t h
    match s, t with
    | [], t => simp [edist]
    | a :: s, [] => simp [edist]
    | a :: s, b :: t =>
      have h1 := ih s (b :: t) (by simp at h ⊢; omega)
      have h2 := ih (a :: s) t (by simp at h ⊢; omega)
      have h3 := ih s t (by simp at h ⊢; omega)
      simp only [edist, List.length_cons] at h1 h2 h3 ⊢
      by_cases hab : a = b
      · rw [if_pos hab]; omega
      · rw [if_neg hab]; omega

theorem rowSpec_headD (X Y t : List Char) (d : Nat) :
    (rowSpec X Y t).headD d = edist X Y := by
  cases t <;> simp [rowSpec]

theorem levRowAux_spec (x : Char) (X : List Char) :
    ∀ (t Y : List Char),
      edist (x :: X) Y :: levRowAux x (edist (x :: X) Y) t (rowSpec X Y t)
        = rowSpec (x :: X) Y t := by
  intro t
  induction t with
  | nil => intro Y; simp [levRowAux, rowSpec]
  | cons b t ih =>
    intro Y
    simp only [rowSpec, levRowAux, rowSpec_headD]
    have hv : min (min (edist X (b :: Y) + 1) (edist (x :: X) Y + 1))
        (edist X Y + (if x = b then 0 else 1)) = edist (x :: X) (b :: Y) := by
      simp [edist]
    rw [hv, ih (b :: Y)]

theorem levRows_spec (s2 : List Char) :
    ∀ (R X : List Char) (n : Nat), n = X.length →
      levRows s2 R n (rowSpec X [] s2) = rowSpec (R.reverse ++ X) [] s2 := by
  intro R
  induction R with
  | nil => intro X n hn; simp [levRows]
  | cons x R ih =>
    intro X n hn
    subst hn
    simp only [levRows]
    have h1 : X.length + 1 = edist (x :: X) [] := by simp [edist]
    rw [h1, levRowAux_spec x X s2 [], ih (x :: X) (edist (x :: X) []) (by
      rw [edist_nil_right])]
    simp

theorem rowSpec_nil (t Y : List Char) :
    rowSpec [] Y t = List.range' Y.length (t.length + 1) := by
  induction t generalizing Y with
  | nil => simp [rowSpec, edist, List.range'_succ]
  | cons b t ih =>
    simp only [rowSpec, edist, ih (b :: Y), List.length_cons]
    rw [List.range'_succ, List.range'_succ, List.range'_succ]

theorem rowSpec_getLastD (X : List Char) :
    ∀ (t Y : List Char) (d : Nat),
      (rowSpec X Y t).getLastD d = edist X (t.reverse ++ Y) := by
  intro t
  induction t with
  | nil => intro Y d; simp [rowSpec]
  | cons b t ih =>
    intro Y d
    simp only [rowSpec, List.getLastD_cons, ih (b :: Y)]
    simp

theorem levBase_eq (s1 s2 : List Char) : levBase s1 s2 = edist s1.reverse s2.reverse := by
  unfold levBase
  by_cases h : s2.length = 0
  · rw [List.length_eq_zero] at h
    subst h
    simp [edist_nil_right]
  · rw [if_neg h]
    have hinit : List.range (s2.length + 1) = rowSpec [] [] s2 := by
      rw [rowSpec_nil]; simp [List.range_eq_range']
    rw [hinit, levRows_spec s2 s1 [] 0 rfl, rowSpec_getLastD]
    simp

/-! ## Lexicographic order lemmas -/

theorem lexLt_append_cons (cur : List Char) (c : Char) (r : List Char) :
    lexLt cur (cur ++ c :: r) = true := by
  induction cur with
  | nil => simp [lexLt]
  | cons d cur ih => simp [lexLt, ih]

theorem lexLt_append_lt (cur : List Char) {c c' : Char} (r r' : List Char) (h : c < c') :
    lexLt (cur ++ c :: r) (cur ++ c' :: r') = true := by
  induction cur with
  | nil => simp [lexLt, h]
  | cons d cur ih => simp [lexLt, ih]

theorem lexLt_trans {a b c : List Char} (hab : lexLt a b = true) (hbc : lexLt b c = true) :
    lexLt a c = true := by
  induction a generalizing b c with
  | nil =>
    cases b with
    | nil => simp [lexLt] at hab
    | cons y ys =>
      cases c with
      | nil => simp [lexLt] at hbc
      | cons z zs => simp [lexLt]
  | cons x xs ih =>
    cases b with
    | nil => simp [lexLt] at hab
    | cons y ys =>
      cases c with
      | nil => simp [lexLt] at hbc
      | cons z zs =>
        simp only [lexLt] at hab hbc ⊢
        rcases lt_trichotomy x y with h1 | h1 | h1
        · rcases lt_trichotomy y z with h2 | h2 | h2
          · simp [lt_trans h1 h2]
          · subst h2; simp [h1]
          · rw [if_neg (lt_asymm h2), if_pos h2] at hbc; simp at hbc
        · subst h1
          rw [if_neg (lt_irrefl x), if_neg (lt_irrefl x)] at hab
          rcases lt_trichotomy x z with h2 | h2 | h2
          · simp [h2]
          · subst h2
            rw [if_neg (lt_irrefl x), if_neg (lt_irrefl x)] at hbc
            simp [lt_irrefl, ih hab hbc]
          · rw [if_neg (lt_asymm h2), if_pos h2] at hbc; simp at hbc
        · rw [if_neg (lt_asymm h1), if_pos h1] at hab; simp at hab

/-! ## Generic insertion-sort lemmas for `sortBy` -/

theorem mem_insertBy (le : α → α → Bool) (x : α) (l : List α) (z : α) :
    z ∈ insertBy le x l ↔ z = x ∨ z ∈ l := by
  induction l with
  | nil => simp [insertBy]
  | cons y ys ih =>
    simp only [insertBy]
    split
    · simp [List.mem_cons]
    · simp [List.mem_cons, ih]
      tauto

theorem insertBy_perm (le : α → α → Bool) (x : α) (l : List α) :
    List.Perm (insertBy le x l) (x :: l) := by
  induction l with
  | nil => simp [insertBy]
  | cons y ys ih =>
    simp only [insertBy]
    split
    · exact List.Perm.refl _
    · exact List.Perm.trans (List.Perm.cons y ih) (List.Perm.swap x y ys)

theorem sortBy_perm (le : α → α → Bool) (l : List α) : List.Perm (sortBy le l) l := by
  induction l with
  | nil => exact List.Perm.refl _
  | cons x xs ih =>
    exact List.Perm.trans (insertBy_perm le x (sortBy le xs)) (List.Perm.cons x ih)

theorem pairwise_insertBy {le : α → α → Bool}
    (htot : ∀ a b, le a b = true ∨ le b a = true)
    (htr : ∀ a b c, le a b = true → le b c = true → le a c = true)
    (x : α) {l : List α} (h : l.Pairwise (fun a b => le a b = true)) :
    (insertBy le x l).Pairwise (fun a b => le a b = true) := by
  induction l with
  | nil => simp [insertBy]
  | cons y ys ih =>
    rcases List.pairwise_cons.mp h with ⟨hy, hys⟩
    simp only [insertBy]
    split
    · rename_i hxy
      refine List.pairwise_cons.mpr ⟨?_, h⟩
      intro z hz
      rcases List.mem_cons.mp hz with rfl | hz
      · exact hxy
      · exact htr _ _ _ hxy (hy z hz)
    · rename_i hxy
      have hyx : le y x = true := by
        rcases htot x y with h' | h'
        · exact absurd h' hxy
        · exact h'
      refine List.pairwise_cons.mpr ⟨?_, ih hys⟩
      intro z hz
      rcases (mem_insertBy le x ys z).mp hz with rfl | hz
      · exact hyx
      · exact hy z hz

theorem pairwise_sortBy {le : α → α → Bool}
    (htot : ∀ a b, le a b = true ∨ le b a = true)
    (htr : ∀ a b c, le a b = true → le b c = true → le a c = true)
    (l : List α) : (sortBy le l).Pairwise (fun a b => le a b = true) := by
  induction l with
  | nil => simp [sortBy]
  | cons x xs ih => exact pairwise_insertBy htot htr x ih

/-! ## Trie well-formedness and membership lemmas -/

theorem sizeOf_insertBy (le : α → α → Bool) [SizeOf α] (x : α) (l : List α) :
    sizeOf (insertBy le x l) = 1 + sizeOf x + sizeOf l := by
  induction l with
  | nil => simp +arith [insertBy]
  | cons y ys ih => simp only [insertBy]; split <;> simp +arith [ih]

theorem sizeOf_sortBy (le : α → α → Bool) [SizeOf α] (l : List α) :
    sizeOf (sortBy le l) = sizeOf l := by
  induction l with
  | nil => rfl
  | cons x xs ih => simp +arith [sortBy, sizeOf_insertBy, ih]

theorem childrenWF_iff (l : List (Char × TrieNode)) :
    childrenWF l ↔ ∀ p ∈ l, nodeWF p.2 := by
  induction l with
  | nil => simp [childrenWF]
  | cons p rest ih =>
    obtain ⟨c, m⟩ := p
    simp [childrenWF, ih]

theorem nodeWF_empty : nodeWF emptyNode := by
  simp [emptyNode, nodeWF, keysOf, childrenWF]

theorem childFind_mem {l : List (Char × TrieNode)} {c : Char} {m : TrieNode}
    (h : childFind l c = some m) : ∃ p ∈ l, p.1 = c ∧ p.2 = m := by
  induction l with
  | nil => simp [childFind] at h
  | cons p rest ih =>
    simp only [childFind] at h
    split at h
    · rename_i hc
      cases h
      exact ⟨p, by simp, hc, rfl⟩
    · obtain ⟨q, hq, hqc, hqm⟩ := ih h
      exact ⟨q, by simp [hq], hqc, hqm⟩

theorem mem_childSet {l : List (Char × TrieNode)} {c : Char} {n : TrieNode}
    {p : Char × TrieNode} (hp : p ∈ childSet l c n) : p = (c, n) ∨ p ∈ l := by
  induction l with
  | nil =>
    simp [childSet] at hp
    simp [hp]
  | cons q rest ih =>
    simp only [childSet] at hp
    split at hp
    · rcases List.mem_cons.mp hp with rfl | hp
      · exact Or.inl rfl
      · exact Or.inr (by simp [hp])
    · rcases List.mem_cons.mp hp with rfl | hp
      · exact Or.inr (by simp)
      · rcases ih hp with h | h
        · exact Or.inl h
        · exact Or.inr (by simp [h])

theorem childrenWF_childSet {l : List (Char × TrieNode)} {c : Char} {n : TrieNode}
    (hl : childrenWF l) (hn : nodeWF n) : childrenWF (childSet l c n) := by
  rw [childrenWF_iff] at hl ⊢
  intro p hp
  rcases mem_childSet hp with rfl | hp
  · exact hn
  · exact hl p hp

theorem keysOf_childSet (l : List (Char × TrieNode)) (c : Char) (n : TrieNode) :
    keysOf (childSet l c n) = if c ∈ keysOf l then keysOf l else keysOf l ++ [c] := by
  induction l with
  | nil => simp [childSet, keysOf]
  | cons p rest ih =>
    simp only [childSet, keysOf, List.map_cons]
    split
    · rename_i hc
      simp [keysOf, List.mem_cons, hc]
    · rename_i hc
      have hne : c ≠ p.1 := fun h => hc h.symm
      simp only [List.map_cons, keysOf] at ih ⊢
      rw [ih]
      by_cases hmem : c ∈ List.map Prod.fst rest
      · simp [hmem, List.mem_cons, hne]
      · simp [hmem, List.mem_cons, hne]

theorem insertAux_WF (full : List Char) :
    ∀ (w : List Char) (n : TrieNode), nodeWF n → nodeWF (insertAux full w n) := by
  intro w
  induction w with
  | nil =>
    intro n h
    cases n with
    | mk ch e wd =>
      simp only [insertAux, TrieNode.children, nodeWF] at h ⊢
      exact h
  | cons c rest ih =>
    intro n h
    cases n with
    | mk ch e wd =>
      simp only [insertAux, TrieNode.children, TrieNode.is_end_of_word, TrieNode.word,
        nodeWF] at h ⊢
      obtain ⟨hnd, hwf⟩ := h
      have hchild : nodeWF ((childFind ch c).getD emptyNode) := by
        cases hfind : childFind ch c with
        | none => simpa using nodeWF_empty
        | some m =>
          obtain ⟨p, hp, hpc, hpm⟩ := childFind_mem hfind
          have := (childrenWF_iff ch).mp hwf p hp
          simpa [hpm] using this
      constructor
      · rw [keysOf_childSet]
        split
        · exact hnd
        · rename_i hcm
          simp [List.nodup_append, hnd, hcm]
      · exact childrenWF_childSet hwf (ih _ hchild)

theorem buildTrie_go_WF (ws : List (List Char)) :
    ∀ t : Trie, nodeWF t.root → nodeWF ((ws.foldl Trie.insert t).root) := by
  induction ws with
  | nil => intro t h; exact h
  | cons w ws ih =>
    intro t h
    exact ih _ (insertAux_WF _ _ _ h)

theorem buildTrie_WF (ws : List (List Char)) : nodeWF (buildTrie ws).root :=
  buildTrie_go_WF ws trieEmpty nodeWF_empty

theorem walkNode_WF : ∀ (p : List Char) (n m : TrieNode),
    nodeWF n → walkNode n p = some m → nodeWF m := by
  intro p
  induction p with
  | nil =>
    intro n m h hw
    simp [walkNode] at hw
    exact hw ▸ h
  | cons c rest ih =>
    intro n m h hw
    simp only [walkNode] at hw
    cases hfind : childFind n.children c with
    | none => rw [hfind] at hw; simp at hw
    | some k =>
      rw [hfind] at hw
      refine ih k m ?_ hw
      obtain ⟨p, hp, hpc, hpm⟩ := childFind_mem hfind
      cases n with
      | mk ch e wd =>
        simp only [nodeWF] at h
        have := (childrenWF_iff ch).mp h.2 p (by simpa [TrieNode.children] using hp)
        simpa [hpm] using this

/-! ## Sortedness of the DFS traversal -/

theorem sortBy_childLe_sorted {l : List (Char × TrieNode)} (hnd : (keysOf l).Nodup) :
    (sortBy childLe l).Pairwise (fun p q => p.1 < q.1) := by
  have hle : (sortBy childLe l).Pairwise (fun p q => childLe p q = true) :=
    pairwise_sortBy
      (fun a b => by
        simp only [childLe, decide_eq_true_eq]
        exact le_total a.1 b.1)
      (fun a b c hab hbc => by
        simp only [childLe, decide_eq_true_eq] at hab hbc ⊢
        exact le_trans hab hbc)
      l
  have hperm : List.Perm (sortBy childLe l) l := sortBy_perm childLe l
  have hnd' : (keysOf (sortBy childLe l)).Nodup := by
    have : List.Perm (keysOf (sortBy childLe l)) (keysOf l) := hperm.map Prod.fst
    exact (List.Perm.nodup_iff this).mpr hnd
  have hne : (sortBy childLe l).Pairwise (fun p q => p.1 ≠ q.1) := by
    have := (List.pairwise_map).mp hnd'
    exact this
  refine (hle.and hne).imp ?_
  rintro a b ⟨h1, h2⟩
  simp only [childLe, decide_eq_true_eq] at h1
  exact lt_of_le_of_ne h1 h2

theorem childrenWF_sortBy {l : List (Char × TrieNode)} (h : childrenWF l) :
    childrenWF (sortBy childLe l) := by
  rw [childrenWF_iff] at h ⊢
  intro p hp
  exact h p ((sortBy_perm childLe l).mem_iff.mp hp)

theorem dfs_spec : ∀ N : Nat,
    (∀ n : TrieNode, sizeOf n ≤ N → nodeWF n →
      ∀ (limit : Nat) (cur : List Char) (acc : List (List Char)),
      ∃ e, dfsNode limit n cur acc = acc ++ e ∧
        e.Pairwise (fun a b => lexLt a b = true) ∧
        ∀ w ∈ e, ∃ r, w = cur ++ r) ∧
    (∀ l : List (Char × TrieNode), sizeOf l ≤ N → childrenWF l →
      l.Pairwise (fun p q => p.1 < q.1) →
      ∀ (limit : Nat) (cur : List Char) (acc : List (List Char)),
      ∃ e, dfsChildren limit l cur acc = acc ++ e ∧
        e.Pairwise (fun a b => lexLt a b = true) ∧
        ∀ w ∈ e, ∃ p, p ∈ l ∧ ∃ r, w = cur ++ p.1 :: r) := by
  intro N
  induction N with
  | zero =>
    constructor
    · intro n hn
      exfalso
      cases n with
      | mk ch e wd => simp +arith at hn
    · intro l hl
      exfalso
      cases l with
      | nil => simp at hl
      | cons p rest => simp +arith at hl
  | succ N ih =>
    obtain ⟨ihN, ihC⟩ := ih
    constructor
    · intro n hn hWF limit cur acc
      rw [dfsNode]
      split
      · exact ⟨[], by simp, by simp, by simp⟩
      · cases n with
        | mk ch e wd =>
          simp only [nodeWF] at hWF
          obtain ⟨hnd, hcwf⟩ := hWF
          have hsize : sizeOf (sortBy childLe (TrieNode.children (TrieNode.mk ch e wd))) ≤ N := by
            rw [sizeOf_sortBy]
            simp only [TrieNode.children]
            simp +arith at hn
            omega
          obtain ⟨e', heq, hpw, hmem⟩ :=
            ihC (sortBy childLe (TrieNode.children (TrieNode.mk ch e wd))) hsize
              (by simpa only [TrieNode.children] using childrenWF_sortBy hcwf)
              (by simpa only [TrieNode.children] using sortBy_childLe_sorted hnd)
              limit cur
              (if TrieNode.is_end_of_word (TrieNode.mk ch e wd) then acc ++ [cur] else acc)
          simp only [TrieNode.is_end_of_word] at heq ⊢
          cases e with
          | false =>
            rw [if_neg (by simp)] at heq
            refine ⟨e', heq, hpw, ?_⟩
            intro w hw
            obtain ⟨p, _, r, hr⟩ := hmem w hw
            exact ⟨p.1 :: r, hr⟩
          | true =>
            rw [if_pos rfl] at heq
            refine ⟨cur :: e', by simpa using heq, ?_, ?_⟩
            · refine List.pairwise_cons.mpr ⟨?_, hpw⟩
              intro w hw
              obtain ⟨p, _, r, hr⟩ := hmem w hw
              rw [hr]
              exact lexLt_append_cons cur p.1 r
            · intro w hw
              rcases List.mem_cons.mp hw with rfl | hw
              · exact ⟨[], by simp⟩
              · obtain ⟨p, _, r, hr⟩ := hmem w hw
                exact ⟨p.1 :: r, hr⟩
    · intro l hl hcwf hsorted limit cur acc
      cases l with
      | nil =>
        rw [dfsChildren]
        exact ⟨[], by simp, by simp, by simp⟩
      | cons p rest =>
        obtain ⟨c, m⟩ := p
        rw [dfsChildren]
        have hm : nodeWF m := (childrenWF_iff _).mp hcwf (c, m) (by simp)
        have hmsize : sizeOf m ≤ N := by simp +arith at hl; omega
        obtain ⟨e1, h1eq, h1pw, h1mem⟩ := ihN m hmsize hm limit (cur ++ [c]) acc
        have hrestwf : childrenWF rest := by
          rw [childrenWF_iff] at hcwf ⊢
          intro q hq
          exact hcwf q (by simp [hq])
        have hrestsorted : rest.Pairwise (fun p q => p.1 < q.1) :=
          (List.pairwise_cons.mp hsorted).2
        have hrsize : sizeOf rest ≤ N := by simp +arith at hl; omega
        obtain ⟨e2, h2eq, h2pw, h2mem⟩ := ihC rest hrsize hrestwf hrestsorted limit cur (acc ++ e1)
        refine ⟨e1 ++ e2, ?_, ?_, ?_⟩
        · rw [h1eq, h2eq, List.append_assoc]
        · apply List.pairwise_append.mpr
          refine ⟨h1pw, h2pw, ?_⟩
          intro w1 hw1 w2 hw2
          obtain ⟨r1, hr1⟩ := h1mem w1 hw1
          obtain ⟨q, hq, r2, hr2⟩ := h2mem w2 hw2
          have hcq : c < q.1 := (List.pairwise_cons.mp hsorted).1 q hq
          rw [hr1, hr2, List.append_assoc, List.singleton_append]
          exact lexLt_append_lt cur r1 r2 hcq
        · intro w hw
          rcases List.mem_append.mp hw with hw | hw
          · obtain ⟨r, hr⟩ := h1mem w hw
            exact ⟨(c, m), by simp, r, by simpa [List.append_assoc] using hr⟩
          · obtain ⟨q, hq, r, hr⟩ := h2mem w hw
            exact ⟨q, by simp [hq], r, hr⟩

theorem dfsNode_sorted {n : TrieNode} (h : nodeWF n) (limit : Nat) (cur : List Char) :
    (dfsNode limit n cur []).Pairwise (fun a b => lexLt a b = true) := by
  obtain ⟨e, heq, hpw, _⟩ := (dfs_spec (sizeOf n)).1 n le_rfl h limit cur []
  simpa [heq] using hpw

theorem get_prefix_matches_sorted (ws : List (List Char)) (p : List Char) (limit : Nat) :
    (Trie.get_prefix_matches (buildTrie ws) p limit).Pairwise
      (fun a b => lexLt a b = true) := by
  rw [Trie.get_prefix_matches]
  cases hw : walkNode (buildTrie ws).root (lowerStr p) with
  | none => simp
  | some n =>
    simp only
    have hWF := walkNode_WF _ _ _ (buildTrie_WF ws) hw
    exact (dfsNode_sorted hWF limit (lowerStr p)).sublist (List.take_sublist _ _)

/-! ## Order lemmas for the candidate sort -/

theorem lexLe_total (a : List Char) : ∀ b, lexLe a b = true ∨ lexLe b a = true := by
  induction a with
  | nil => intro b; left; simp [lexLe]
  | cons x xs ih =>
    intro b
    cases b with
    | nil => right; simp [lexLe]
    | cons y ys =>
      rcases lt_trichotomy x y with h | h | h
      · left; simp [lexLe, h]
      · subst h
        rcases ih ys with h' | h'
        · left; simp [lexLe, lt_irrefl, h']
        · right; simp [lexLe, lt_irrefl, h']
      · right; simp [lexLe, h]

theorem lexLe_trans {a b c : List Char} (hab : lexLe a b = true) (hbc : lexLe b c = true) :
    lexLe a c = true := by
  induction a generalizing b c with
  | nil => simp [lexLe]
  | cons x xs ih =>
    cases b with
    | nil => simp [lexLe] at hab
    | cons y ys =>
      cases c with
      | nil => simp [lexLe] at hbc
      | cons z zs =>
        simp only [lexLe] at hab hbc ⊢
        rcases lt_trichotomy x y with h1 | h1 | h1
        · rcases lt_trichotomy y z with h2 | h2 | h2
          · simp [lt_trans h1 h2]
          · subst h2; simp [h1]
          · rw [if_neg (lt_asymm h2), if_pos h2] at hbc; simp at hbc
        · subst h1
          rw [if_neg (lt_irrefl x), if_neg (lt_irrefl x)] at hab
          rcases lt_trichotomy x z with h2 | h2 | h2
          · simp [h2]
          · subst h2
            rw [if_neg (lt_irrefl x), if_neg (lt_irrefl x)] at hbc
            simp [lt_irrefl, ih hab hbc]
          · rw [if_neg (lt_asymm h2), if_pos h2] at hbc; simp at hbc
        · rw [if_neg (lt_asymm h1), if_pos h1] at hab; simp at hab

theorem lexLe_antisymm : ∀ {a b : List Char}, lexLe a b = true → lexLe b a = true → a = b := by
  intro a
  induction a with
  | nil =>
    intro b hab hba
    cases b with
    | nil => rfl
    | cons y ys => simp [lexLe] at hba
  | cons x xs ih =>
    intro b hab hba
    cases b with
    | nil => simp [lexLe] at hab
    | cons y ys =>
      simp only [lexLe] at hab hba
      rcases lt_trichotomy x y with h | h | h
      · rw [if_neg (lt_asymm h), if_pos h] at hba; simp at hba
      · subst h
        rw [if_neg (lt_irrefl x), if_neg (lt_irrefl x)] at hab hba
        rw [ih hab hba]
      · rw [if_neg (lt_asymm h), if_pos h] at hab; simp at hab

theorem pairLe_total (p q : Nat × List Char) : pairLe p q = true ∨ pairLe q p = true := by
  simp only [pairLe, Bool.or_eq_true, decide_eq_true_eq, Bool.and_eq_true, beq_iff_eq]
  rcases lt_trichotomy p.1 q.1 with h | h | h
  · exact Or.inl (Or.inl h)
  · rcases lexLe_total p.2 q.2 with h' | h'
    · exact Or.inl (Or.inr ⟨h, h'⟩)
    · exact Or.inr (Or.inr ⟨h.symm, h'⟩)
  · exact Or.inr (Or.inl h)

theorem pairLe_trans (p q r : Nat × List Char) (hpq : pairLe p q = true)
    (hqr : pairLe q r = true) : pairLe p r = true := by
  simp only [pairLe, Bool.or_eq_true, decide_eq_true_eq, Bool.and_eq_true,
    beq_iff_eq] at hpq hqr ⊢
  rcases hpq with h1 | ⟨h1, h1'⟩
  · rcases hqr with h2 | ⟨h2, h2'⟩
    · exact Or.inl (lt_trans h1 h2)
    · exact Or.inl (h2 ▸ h1)
  · rcases hqr with h2 | ⟨h2, h2'⟩
    · exact Or.inl (h1 ▸ h2)
    · exact Or.inr ⟨h1.trans h2, lexLe_trans h1' h2'⟩

theorem pairLe_antisymm {p q : Nat × List Char} (hpq : pairLe p q = true)
    (hqp : pairLe q p = true) : p = q := by
  simp only [pairLe, Bool.or_eq_true, decide_eq_true_eq, Bool.and_eq_true,
    beq_iff_eq] at hpq hqp
  rcases hpq with h1 | ⟨h1, h1'⟩
  · rcases hqp with h2 | ⟨h2, h2'⟩
    · exact absurd h2 (lt_asymm h1)
    · exact absurd h1 (by omega)
  · rcases hqp with h2 | ⟨h2, h2'⟩
    · exact absurd h2 (by omega)
    · exact Prod.ext h1 (lexLe_antisymm h1' h2')

instance pairLeAntisymm : IsAntisymm (Nat × List Char) (fun p q => pairLe p q = true) :=
  ⟨fun _ _ => pairLe_antisymm⟩

/-- Sorting by `pairLe` is a canonical form: permutation-equal inputs
sort to the same list. -/
theorem sortPairs_eq_of_perm {l1 l2 : List (Nat × List Char)} (h : List.Perm l1 l2) :
    sortBy pairLe l1 = sortBy pairLe l2 := by
  apply List.eq_of_perm_of_sorted (r := fun p q => pairLe p q = true)
  · exact ((sortBy_perm pairLe l1).trans h).trans (sortBy_perm pairLe l2).symm
  · exact pairwise_sortBy pairLe_total pairLe_trans l1
  · exact pairwise_sortBy pairLe_total pairLe_trans l2

/-! ## The candidate loop as a filter over the vocabulary -/

theorem candFromBucket_eq (s : SpellSuggester) (w : List Char) (l : List (List Char)) :
    candFromBucket s w l =
      (l.filter (fun t => firstCharOk w t && decide (levenshtein w t ≤ s.max_dist))).map
        (fun t => (levenshtein w t, t)) := by
  induction l with
  | nil => simp [candFromBucket]
  | cons t ts ih =>
    simp only [candFromBucket, ih, List.filter_cons]
    by_cases h1 : firstCharOk w t
    · by_cases h2 : levenshtein w t ≤ s.max_dist
      · simp [h1, h2]
      · simp [h1, h2]
    · simp [h1]

theorem filter_or_perm (p q : α → Bool) (l : List α)
    (h : ∀ a ∈ l, ¬(p a = true ∧ q a = true)) :
    List.Perm (l.filter (fun a => p a || q a)) (l.filter p ++ l.filter q) := by
  induction l with
  | nil => simp
  | cons a as ih =>
    have hh : ∀ b ∈ as, ¬(p b = true ∧ q b = true) := fun b hb => h b (by simp [hb])
    by_cases hp : p a = true
    · have hq : q a = false := by
        cases hqv : q a
        · rfl
        · exact absurd ⟨hp, hqv⟩ (h a (by simp))
      simp only [List.filter_cons, hp, hq, Bool.or_true, Bool.true_or, if_pos]
      simp only [List.cons_append]
      exact (ih hh).cons a
    · have hp' : p a = false := by
        cases hpv : p a
        · rfl
        · exact absurd hpv hp
      cases hq : q a
      · simp only [List.filter_cons, hp', hq, Bool.or_self, Bool.false_or]
        exact ih hh
      · simp only [List.filter_cons, hp', hq, Bool.false_or]
        exact ((ih hh).cons a).trans List.perm_middle.symm

theorem collectCandidates_perm (s : SpellSuggester) (w : List Char) :
    ∀ lens : List Nat, lens.Nodup →
      List.Perm (collectCandidates s w lens)
        ((s.vocab.filter (fun t => decide (t.length ∈ lens) &&
          (firstCharOk w t && decide (levenshtein w t ≤ s.max_dist)))).map
          (fun t => (levenshtein w t, t))) := by
  intro lens
  induction lens with
  | nil =>
    intro _
    have : (s.vocab.filter (fun t => decide (t.length ∈ ([] : List Nat)) &&
        (firstCharOk w t && decide (levenshtein w t ≤ s.max_dist)))) = [] := by
      apply List.eq_nil_of_length_eq_zero
      rw [← List.countP_eq_length_filter]
      apply Nat.eq_zero_of_le_zero
      apply le_of_eq
      rw [List.countP_eq_zero]
      intro t _
      simp
    simp [collectCandidates, this]
  | cons L rest ih =>
    intro hnd
    rcases List.nodup_cons.mp hnd with ⟨hL, hnd'⟩
    simp only [collectCandidates]
    rw [candFromBucket_eq, bucket, List.filter_filter]
    have hsplit : ∀ t ∈ s.vocab,
        (decide (t.length ∈ L :: rest) &&
          (firstCharOk w t && decide (levenshtein w t ≤ s.max_dist)))
        = (((firstCharOk w t && decide (levenshtein w t ≤ s.max_dist)) && t.length == L) ||
           (decide (t.length ∈ rest) &&
             (firstCharOk w t && decide (levenshtein w t ≤ s.max_dist)))) := by
      intro t _
      have hmc : decide (t.length ∈ L :: rest)
          = ((t.length == L) || decide (t.length ∈ rest)) := by
        by_cases h : t.length = L <;> by_cases h' : t.length ∈ rest <;>
          simp [List.mem_cons, h, h']
      have hbool : ∀ A B C : Bool, ((B || C) && A) = ((A && B) || (C && A)) := by decide
      rw [hmc]
      exact hbool _ _ _
    rw [List.filter_congr hsplit]
    have hdisj : ∀ t ∈ s.vocab,
        ¬(((firstCharOk w t && decide (levenshtein w t ≤ s.max_dist)) && t.length == L) = true ∧
          (decide (t.length ∈ rest) &&
            (firstCharOk w t && decide (levenshtein w t ≤ s.max_dist))) = true) := by
      intro t _
      rintro ⟨h1, h2⟩
      simp only [Bool.and_eq_true, beq_iff_eq, decide_eq_true_eq] at h1 h2
      exact hL (h1.2 ▸ h2.1)
    refine List.Perm.trans ?_ ((filter_or_perm _ _ _ hdisj).map _).symm
    rw [List.map_append]
    exact List.Perm.append (List.Perm.refl _) (ih hnd')

/-- Pointwise identity between the loop's candidate test (length in the
bucket range, first-char filter, distance bound) and the claim's filter. -/
theorem claim_pred_eq (s : SpellSuggester) {w : List Char} (hw : w ≠ []) (t : List Char) :
    (decide (t.length ∈ List.range' (max 1 (w.length - 1)) (w.length + 2 - max 1 (w.length - 1))) &&
      (firstCharOk w t && decide (levenshtein w t ≤ s.max_dist)))
    = (decide (max 1 (w.length - 1) ≤ t.length) && decide (t.length ≤ w.length + 1) &&
      (t.headD ' ' == w.headD ' ') && decide (levenshtein w t ≤ s.max_dist)) := by
  obtain ⟨d, wr, rfl⟩ : ∃ d wr, w = d :: wr := by
    cases w with
    | nil => exact absurd rfl hw
    | cons d wr => exact ⟨d, wr, rfl⟩
  by_cases h1 : max 1 ((d :: wr).length - 1) ≤ t.length
  · by_cases h2 : t.length ≤ (d :: wr).length + 1
    · have hmem : t.length ∈ List.range' (max 1 ((d :: wr).length - 1))
          ((d :: wr).length + 2 - max 1 ((d :: wr).length - 1)) := by
        rw [List.mem_range'_1]
        constructor
        · exact h1
        · omega
      obtain ⟨c, ts, rfl⟩ : ∃ c ts, t = c :: ts := by
        cases t with
        | nil =>
          exfalso
          rw [List.length_nil, Nat.le_zero] at h1
          omega
        | cons c ts => exact ⟨c, ts, rfl⟩
      rw [decide_eq_true hmem, decide_eq_true h1, decide_eq_true h2]
      simp only [Bool.true_and, firstCharOk, List.headD_cons]
    · have hmem : t.length ∉ List.range' (max 1 ((d :: wr).length - 1))
          ((d :: wr).length + 2 - max 1 ((d :: wr).length - 1)) := by
        intro hc
        rcases List.mem_range'_1.mp hc with ⟨ha, hb⟩
        exact h2 (by omega)
      rw [decide_eq_false hmem, decide_eq_false h2]
      simp only [Bool.false_and, Bool.and_false]
  · have hmem : t.length ∉ List.range' (max 1 ((d :: wr).length - 1))
        ((d :: wr).length + 2 - max 1 ((d :: wr).length - 1)) := by
      intro hc
      rcases List.mem_range'_1.mp hc with ⟨ha, hb⟩
      exact h1 ha
    rw [decide_eq_false hmem, decide_eq_false h1]
    simp only [Bool.false_and, Bool.and_false]

/-- With a non-empty query that is not in the vocabulary, `suggest`
computes exactly the sequence described by claim C2 (`claimSuggest`). -/
theorem suggest_eq_claimSuggest (s : SpellSuggester) (word : List Char) (top_k : Nat)
    (hne : strip (lowerStr word) ≠ [])
    (hnv : strip (lowerStr word) ∉ s.vocab) :
    suggest s word top_k = claimSuggest s word top_k := by
  rw [suggest, claimSuggest]
  simp only
  rw [if_neg (by push_neg; exact ⟨hne, hnv⟩)]
  apply congrArg (List.take top_k)
  apply congrArg (List.map Prod.snd)
  apply sortPairs_eq_of_perm
  refine List.Perm.trans
    (collectCandidates_perm s (strip (lowerStr word)) _ (List.nodup_range' _ _)) ?_
  rw [List.filter_congr (fun t _ => claim_pred_eq s hne t)]

/-! ## Guard and invariance properties of `suggest` -/

theorem suggest_guard (s : SpellSuggester) (word : List Char) (top_k : Nat)
    (h : strip (lowerStr word) = [] ∨ strip (lowerStr word) ∈ s.vocab) :
    suggest s word top_k = [] := by
  rw [suggest]
  simp only
  rw [if_pos h]

theorem collectCandidates_nil_vocab {s : SpellSuggester} (hv : s.vocab = [])
    (w : List Char) : ∀ lens, collectCandidates s w lens = [] := by
  intro lens
  induction lens with
  | nil => rfl
  | cons L rest ih => simp [collectCandidates, bucket, hv, candFromBucket, ih]

theorem suggest_empty_vocab (max_dist : Nat) (word : List Char) (top_k : Nat) :
    suggest (mkSuggester [] max_dist) word top_k = [] := by
  have hv : (mkSuggester [] max_dist).vocab = [] := rfl
  rw [suggest]
  simp only
  by_cases h : strip (lowerStr word) = [] ∨
      strip (lowerStr word) ∈ (mkSuggester [] max_dist).vocab
  · rw [if_pos h]
  · rw [if_neg h, collectCandidates_nil_vocab hv]
    simp [sortBy]

theorem claimSuggest_perm {v1 v2 : List (List Char)} (d : Nat)
    (h : List.Perm v1 v2) (word : List Char) (top_k : Nat) :
    claimSuggest ⟨v1, d⟩ word top_k = claimSuggest ⟨v2, d⟩ word top_k := by
  rw [claimSuggest, claimSuggest]
  simp only
  apply congrArg (List.take top_k)
  apply congrArg (List.map Prod.snd)
  apply sortPairs_eq_of_perm
  exact (h.filter _).map _

/-- `suggest` is insensitive to the construction order of the
vocabulary: permutation-equal vocabularies give identical results. -/
theorem suggest_perm {s1 s2 : SpellSuggester} (hv : List.Perm s1.vocab s2.vocab)
    (hd : s1.max_dist = s2.max_dist) (word : List Char) (top_k : Nat) :
    suggest s1 word top_k = suggest s2 word top_k := by
  obtain ⟨v1, d1⟩ := s1
  obtain ⟨v2, d2⟩ := s2
  simp only at hv hd
  subst hd
  by_cases hg : strip (lowerStr word) = [] ∨ strip (lowerStr word) ∈ v1
  · rw [suggest_guard _ _ _ hg, suggest_guard]
    rcases hg with h | h
    · exact Or.inl h
    · exact Or.inr (hv.mem_iff.mp h)
  · push_neg at hg
    have hg2e : strip (lowerStr word) ∉ v2 := fun hc => hg.2 (hv.mem_iff.mpr hc)
    rw [suggest_eq_claimSuggest _ _ _ hg.1 hg.2,
      suggest_eq_claimSuggest _ _ _ hg.1 hg2e]
    exact claimSuggest_perm d1 hv word top_k

/-! ## Words stored at terminal nodes -/

theorem termWords_empty : termWords emptyNode = [] := by
  simp [emptyNode, termWords, childWords]

theorem mem_childWords {l : List (Char × TrieNode)} {x : List Char} :
    x ∈ childWords l ↔ ∃ p ∈ l, x ∈ termWords p.2 := by
  induction l with
  | nil => simp [childWords]
  | cons p rest ih =>
    obtain ⟨c, m⟩ := p
    simp [childWords, ih]

theorem termWords_insertAux (full : List Char) :
    ∀ (w : List Char) (n : TrieNode) (x : List Char),
      x ∈ termWords (insertAux full w n) → x = full ∨ x ∈ termWords n := by
  intro w
  induction w with
  | nil =>
    intro n x hx
    cases n with
    | mk ch e wd =>
      simp only [insertAux, TrieNode.children, termWords] at hx
      simp only [if_pos, Option.toList_some] at hx
      rcases List.mem_append.mp hx with hx | hx
      · rcases List.mem_singleton.mp (by simpa using hx) with rfl
        exact Or.inl rfl
      · exact Or.inr (by simp only [termWords]; exact List.mem_append.mpr (Or.inr hx))
  | cons c rest ih =>
    intro n x hx
    cases n with
    | mk ch e wd =>
      simp only [insertAux, TrieNode.children, TrieNode.is_end_of_word, TrieNode.word,
        termWords] at hx
      rcases List.mem_append.mp hx with hx | hx
      · exact Or.inr (by simp only [termWords]; exact List.mem_append.mpr (Or.inl hx))
      · rcases mem_childWords.mp hx with ⟨p, hp, hxp⟩
        rcases mem_childSet hp with rfl | hp'
        · rcases ih _ x hxp with h | h
          · exact Or.inl h
          · right
            cases hfind : childFind ch c with
            | none =>
              rw [hfind] at h
              simp [termWords_empty] at h
            | some k =>
              rw [hfind] at h
              obtain ⟨q, hq, hqc, hqk⟩ := childFind_mem hfind
              simp only [termWords]
              refine List.mem_append.mpr (Or.inr ?_)
              exact mem_childWords.mpr ⟨q, hq, by rw [hqk]; exact h⟩
        · exact Or.inr (by
            simp only [termWords]
            exact List.mem_append.mpr (Or.inr (mem_childWords.mpr ⟨p, hp', hxp⟩)))

theorem termWords_foldl (ws : List (List Char)) :
    ∀ (t : Trie) (x : List Char), x ∈ termWords ((ws.foldl Trie.insert t).root) →
      x ∈ termWords t.root ∨ ∃ u ∈ ws, x = lowerStr u := by
  induction ws with
  | nil => intro t x h; exact Or.inl h
  | cons w ws ih =>
    intro t x h
    rcases ih _ x h with h' | ⟨u, hu, hx⟩
    · rcases termWords_insertAux _ _ _ _ h' with h'' | h''
      · exact Or.inr ⟨w, by simp, h''⟩
      · exact Or.inl h''
    · exact Or.inr ⟨u, by simp [hu], hx⟩

theorem termWords_buildTrie {ws : List (List Char)} {x : List Char}
    (h : x ∈ termWords (buildTrie ws).root) : ∃ u ∈ ws, x = lowerStr u := by
  rcases termWords_foldl ws trieEmpty x h with h' | h'
  · rw [trieEmpty] at h'
    simp [termWords_empty] at h'
  · exact h'

/-! ## Lowercasing is idempotent -/

theorem toNat_ofNat_valid {n : Nat} (h : n.isValidChar) : (Char.ofNat n).toNat = n := by
  simp [Char.ofNat, dif_pos h, Char.ofNatAux, Char.toNat, UInt32.toNat]

theorem toLower_idem (c : Char) : Char.toLower (Char.toLower c) = Char.toLower c := by
  unfold Char.toLower
  by_cases h : c.toNat ≥ 65 ∧ c.toNat ≤ 90
  · rw [if_pos h]
    have hv : (Char.ofNat (c.toNat + 32)).toNat = c.toNat + 32 := by
      apply toNat_ofNat_valid
      exact Or.inl (by omega)
    rw [hv, if_neg (by omega)]
  · rw [if_neg h, if_neg h]

theorem lowerStr_idem (s : List Char) : lowerStr (lowerStr s) = lowerStr s := by
  induction s with
  | nil => rfl
  | cons c cs ih =>
    simp only [lowerStr, List.map_cons] at ih ⊢
    rw [toLower_idem]
    exact congrArg (List.cons _) ih

/-! ## `insert_all` as insertion of the non-blank entries -/

theorem insert_all_eq_filter (ws : List (List Char)) :
    ∀ t : Trie, Trie.insert_all t ws =
      (ws.filter (fun w => !(strip w).isEmpty)).foldl Trie.insert t := by
  induction ws with
  | nil => intro t; rfl
  | cons w ws ih =>
    intro t
    by_cases h : strip w = []
    · have hb : (!(strip w).isEmpty) = false := by simp [h]
      simp only [Trie.insert_all, List.foldl_cons, List.filter_cons, hb, if_pos h]
      exact ih t
    · have hb : (!(strip w).isEmpty) = true := by simp [h]
      simp only [Trie.insert_all, List.foldl_cons, List.filter_cons, hb, if_neg h]
      exact ih (t.insert w)

/-! ## Claim theorems -/

/-- Claim C1 (code-bug evidence): the spec says an input whose original
form ends in a space (such as `"the "`) never invokes the Corrector.
In the source, `handle_input` strips the text *before* testing
`text[-1] != " "`, so the suppression can never fire: at the failing
input `"the "`, with an empty trie and a Corrector built from
`["them"]` with maxDist 2, the produced correction list is the
non-empty `["them"]`. -/
theorem c1_handle_input_trailing_space_eval :
    handle_input ['t','h','e',' '] trieEmpty (mkSuggester [['t','h','e','m']] 2)
      = some ([], [['t','h','e','m']]) := by decide

/-- Claim C2 (counterexample): as stated, the claim omits the guard for
queries already in the vocabulary.  For the Corrector built from
`["the"]` with maxDist 2 and query `"the"`, `suggest` returns `[]`
(exact match) while the claim's described list is `["the"]`. -/
theorem c2_counterexample :
    suggest (mkSuggester [['t','h','e']] 2) ['t','h','e'] 3
        ≠ claimSuggest (mkSuggester [['t','h','e']] 2) ['t','h','e'] 3 ∧
    suggest (mkSuggester [['t','h','e']] 2) ['t','h','e'] 3 = [] ∧
    claimSuggest (mkSuggester [['t','h','e']] 2) ['t','h','e'] 3 = [['t','h','e']] := by
  decide

/-- Claim C2 (amended): for every constructed Corrector, query and
`top_k`, provided the lowercased trimmed query is non-empty and not
itself in the vocabulary, `suggest` returns exactly the first `top_k`
entries of the claim's described list (`claimSuggest`): the vocabulary
terms from the buckets for lengths `max(1, wlen-1) .. wlen+1` with
matching first character and distance at most maxDist, sorted
ascending by `(distance, term)`. -/
theorem c2_suggest_matches_spec_list (s : SpellSuggester) (word : List Char) (top_k : Nat)
    (hne : strip (lowerStr word) ≠ []) (hnv : strip (lowerStr word) ∉ s.vocab) :
    suggest s word top_k = claimSuggest s word top_k :=
  suggest_eq_claimSuggest s word top_k hne hnv

/-- Claim C2 witness: the amended theorem applied at a concrete input. -/
theorem c2_witness :
    suggest (mkSuggester [['t','h','e','m']] 2) ['t','h','e'] 3
      = claimSuggest (mkSuggester [['t','h','e','m']] 2) ['t','h','e'] 3 :=
  c2_suggest_matches_spec_list (mkSuggester [['t','h','e','m']] 2) ['t','h','e'] 3
    (by decide) (by decide)

/-- Claim C3: for every trie built by a sequence of `insert` calls and
every prefix and limit, `get_prefix_matches` returns its results in
strictly ascending lexicographic order; in particular, after inserting
{"machine", "macbook", "macarena"}, `get_prefix_matches("mac", 5)`
returns exactly `["macarena", "macbook", "machine"]`. -/
theorem c3_get_prefix_matches_sorted :
    (∀ (ws : List (List Char)) (p : List Char) (limit : Nat),
      (Trie.get_prefix_matches (buildTrie ws) p limit).Pairwise
        (fun a b => lexLt a b = true)) ∧
    Trie.get_prefix_matches
        (buildTrie [['m','a','c','h','i','n','e'], ['m','a','c','b','o','o','k'],
          ['m','a','c','a','r','e','n','a']]) ['m','a','c'] 5
      = [['m','a','c','a','r','e','n','a'], ['m','a','c','b','o','o','k'],
         ['m','a','c','h','i','n','e']] := by
  constructor
  · exact get_prefix_matches_sorted
  · simp [Trie.get_prefix_matches, buildTrie, trieEmpty, emptyNode, Trie.insert, insertAux,
      childSet, childFind, lowerStr, walkNode, dfsNode, dfsChildren, sortBy, insertBy,
      childLe, TrieNode.children, TrieNode.is_end_of_word]

/-- Claim C4 (counterexample): inserting the empty string marks the
root terminal and stores the empty word there, so not every word
stored at a terminal node is non-empty. -/
theorem c4_counterexample :
    [] ∈ termWords (buildTrie [[]]).root ∧
    ¬(∀ x ∈ termWords (buildTrie [[]]).root, x ≠ []) := by
  have h : termWords (buildTrie [[]]).root = [[]] := by
    simp [buildTrie, trieEmpty, Trie.insert, insertAux, lowerStr, emptyNode, termWords,
      childWords, TrieNode.children]
  constructor
  · rw [h]; simp
  · intro hc
    exact hc [] (by rw [h]; simp) rfl

/-- Claim C4 (amended): for every sequence of `insert` operations,
every word stored at a terminal node is lowercase (`lower` fixes it);
it is moreover non-empty provided no inserted word was empty. -/
theorem c4_terminal_words_lowercase (ws : List (List Char)) :
    ∀ x ∈ termWords (buildTrie ws).root, lowerStr x = x ∧ ([] ∉ ws → x ≠ []) := by
  intro x hx
  obtain ⟨u, hu, rfl⟩ := termWords_buildTrie hx
  refine ⟨lowerStr_idem u, ?_⟩
  intro hnil hc
  apply hnil
  have hu' : u = [] := by simpa [lowerStr] using hc
  exact hu' ▸ hu

/-- Claim C4 witness: the amended theorem applied at a concrete input. -/
theorem c4_witness :
    lowerStr ['a'] = ['a'] ∧ ([] ∉ [['a']] → ['a'] ≠ ([] : List Char)) :=
  c4_terminal_words_lowercase [['a']] ['a']
    (by simp [buildTrie, trieEmpty, Trie.insert, insertAux, lowerStr, emptyNode, termWords,
      childWords, TrieNode.children, TrieNode.is_end_of_word, TrieNode.word, childSet,
      childFind, Char.toLower])

/-- Claim C5 (counterexample): the standalone `Trie.py` version of
`insert_all` has no blank-entry guard: inserting the single blank
entry `" "` changes the trie (the root gains a `' '` child), while the
claim says blank entries cause no change. -/
theorem c5_counterexample :
    keysOf trieEmpty.root.children = [] ∧
    keysOf (TrieDemo.insert_all trieEmpty [[' ']]).root.children = [' '] := by
  decide

/-- Claim C5 (amended): the combined module's `insert_all`
(`Search_Suggestions.py`) applies `insert` to exactly the entries that
are non-blank after trimming, in order; the standalone `Trie.py`
variant lacks the guard and inserts every entry. -/
theorem c5_insert_all_skips_blank (t : Trie) (ws : List (List Char)) :
    Trie.insert_all t ws = (ws.filter (fun w => !(strip w).isEmpty)).foldl Trie.insert t :=
  insert_all_eq_filter ws t

/-- Claim C6: `levenshtein` is symmetric, zero on equal strings, and
equals the length of the other string against the empty string. -/
theorem c6_levenshtein_algebra (a b : List Char) :
    levenshtein a b = levenshtein b a ∧ levenshtein a a = 0 ∧
      levenshtein a [] = a.length := by
  refine ⟨?_, ?_, ?_⟩
  · rcases lt_trichotomy a.length b.length with h | h | h
    · rw [levenshtein, if_pos h, levenshtein, if_neg (by omega)]
    · rw [levenshtein, if_neg (by omega), levenshtein, if_neg (by omega),
        levBase_eq, levBase_eq, edist_symm]
    · rw [levenshtein, if_neg (by omega), levenshtein, if_pos h]
  · rw [levenshtein, if_neg (lt_irrefl _), levBase_eq, edist_self]
  · simp [levenshtein, levBase]

/-- Claim C7: `suggest` never signals an error: it returns the empty
sequence whenever the lowercased trimmed query is empty or already in
the vocabulary, and a Corrector built from an empty vocabulary returns
the empty sequence for every query (totality itself is by type: the
embedding is a total function). -/
theorem c7_suggest_total_and_guard :
    (∀ (s : SpellSuggester) (word : List Char) (top_k : Nat),
      strip (lowerStr word) = [] ∨ strip (lowerStr word) ∈ s.vocab →
      suggest s word top_k = []) ∧
    (∀ (max_dist : Nat) (word : List Char) (top_k : Nat),
      suggest (mkSuggester [] max_dist) word top_k = []) :=
  ⟨suggest_guard, suggest_empty_vocab⟩

/-- Claim C7 witness: the guard applied at a concrete exact-match query. -/
theorem c7_witness : suggest (mkSuggester [['a','b','c']] 2) ['a','b','c'] 3 = [] :=
  c7_suggest_total_and_guard.1 (mkSuggester [['a','b','c']] 2) ['a','b','c'] 3 (by decide)

/-- Claim C8: for every trie, prefix and limit, `get_prefix_matches`
returns at most `limit` results; with `limit = 0` it returns the empty
sequence. -/
theorem c8_get_prefix_matches_le_limit :
    (∀ (t : Trie) (p : List Char) (limit : Nat),
      (Trie.get_prefix_matches t p limit).length ≤ limit) ∧
    (∀ (t : Trie) (p : List Char), Trie.get_prefix_matches t p 0 = []) := by
  have h1 : ∀ (t : Trie) (p : List Char) (limit : Nat),
      (Trie.get_prefix_matches t p limit).length ≤ limit := by
    intro t p limit
    rw [Trie.get_prefix_matches]
    cases walkNode t.root (lowerStr p) with
    | none => simp
    | some n => simp [List.length_take]
  exact ⟨h1, fun t p => List.eq_nil_of_length_eq_zero (Nat.le_zero.mp (h1 t p 0))⟩

/-- Claim C9: the absolute difference of the lengths is a lower bound
on the edit distance (stated as the two truncated subtractions); this
is the assumption behind the Corrector's length-bucket pruning. -/
theorem c9_levenshtein_length_lower_bound (a b : List Char) :
    a.length - b.length ≤ levenshtein a b ∧ b.length - a.length ≤ levenshtein a b := by
  rcases Nat.lt_or_ge a.length b.length with h | h
  · rw [levenshtein, if_pos h, levBase_eq]
    have := edist_len_aux (b.reverse.length + a.reverse.length) b.reverse a.reverse le_rfl
    simp only [List.length_reverse] at this
    omega
  · rw [levenshtein, if_neg (by omega), levBase_eq]
    have := edist_len_aux (a.reverse.length + b.reverse.length) a.reverse b.reverse le_rfl
    simp only [List.length_reverse] at this
    omega

/-- Claim C10: `suggest` is insensitive to vocabulary construction
order: two Correctors built with the same maxDist from sequences whose
constructed vocabularies are permutations of each other (which covers
reorderings, duplicates and case variants of the input sequences)
return identical result sequences for every query and every `top_k`. -/
theorem c10_suggest_order_insensitive (v1 v2 : List (List Char)) (d : Nat)
    (h : List.Perm (mkSuggester v1 d).vocab (mkSuggester v2 d).vocab) :
    ∀ (word : List Char) (top_k : Nat),
      suggest (mkSuggester v1 d) word top_k = suggest (mkSuggester v2 d) word top_k :=
  fun word top_k => suggest_perm h rfl word top_k

/-- Claim C10 witness: two vocabularies differing in order, duplicates
and case give identical suggestions at a concrete query. -/
theorem c10_witness :
    suggest (mkSuggester [['a','b'], ['b','a']] 2) ['a','c'] 3
      = suggest (mkSuggester [['B','A'], ['b','a'], ['A','B']] 2) ['a','c'] 3 :=
  c10_suggest_order_insensitive [['a','b'], ['b','a']] [['B','A'], ['b','a'], ['A','B']] 2
    (by decide) ['a','c'] 3

end SS
